import Mathlib

/-!
Shallow embedding of the recipe-matching and title-search engines of the
recipes miniapp (source files `src/recipes.js` and `src/app.js`).

Strings are modelled as lists of characters; JavaScript string methods
(`toLowerCase`, `trim`, `includes`, `startsWith`, `indexOf`, `split(/\s+/)`,
`substring`, `join`) are translated into executable functions below.
Numeric scores are modelled in ℚ.  Fallible store queries are modelled as
`Except Unit` values: `.error` stands for a rejected query promise.
-/

/-- Strings, as lists of characters. -/
abbrev Str := List Char

/-- Whitespace characters, as matched by the JavaScript class `\s`
(ASCII part) and by `String.prototype.trim`. -/
def isWsChar (c : Char) : Bool :=
  c = ' ' || c = '\t' || c = '\n' || c = '\r' || c = '\x0b' || c = '\x0c'

/-- `String.prototype.toLowerCase`. -/
def lowerStr (s : Str) : Str := s.map Char.toLower

/-- `String.prototype.trim`. -/
def trimStr (s : Str) : Str :=
  ((s.dropWhile isWsChar).reverse.dropWhile isWsChar).reverse

/-- `hay.startsWith needle` : `needle` is a prefix of `hay`. -/
def startsW : Str → Str → Bool
  | _, [] => true
  | [], _ :: _ => false
  | c :: cs, d :: ds => decide (c = d) && startsW cs ds

/-- `hay.includes needle` : `needle` occurs contiguously inside `hay`. -/
def hasSub : Str → Str → Bool
  | [], needle => decide (needle = [])
  | c :: cs, needle => startsW (c :: cs) needle || hasSub cs needle

/-- `hay.indexOf needle` : position of the first contiguous occurrence,
`none` standing for JavaScript's `-1`. -/
def idxOfSub : Str → Str → Option Nat
  | [], needle => if needle = [] then some 0 else none
  | c :: cs, needle =>
    if startsW (c :: cs) needle then some 0 else (idxOfSub cs needle).map (· + 1)

/-- `s.split(/\s+/)` : segments of `s` between maximal whitespace runs,
keeping the empty leading/trailing segments JavaScript produces. -/
def splitWs : Str → List Str
  | [] => [[]]
  | c :: cs =>
    if isWsChar c then
      match cs with
      | [] => [] :: splitWs cs
      | d :: _ => if isWsChar d then splitWs cs else [] :: splitWs cs
    else
      match splitWs cs with
      | [] => [[c]]
      | s :: ss => (c :: s) :: ss

/-- `parts.join sep`. -/
def joinStrs (sep : Str) : List Str → Str
  | [] => []
  | [x] => x
  | x :: y :: xs => x ++ sep ++ joinStrs sep (y :: xs)

/-- A stored recipe.  Fields other than `id` may be absent, matching the
duck-typed guards in the source (`!recipe.ingredients`, `!recipe.title`,
`typeof recipe.instructions !== 'string'`). -/
structure Recipe where
  id : Str
  title : Option Str := none
  ingredients : Option (List Str) := none
  normalizedIngredients : Option (List Str) := none
  instructions : Option Str := none
deriving DecidableEq

/-- `normalizeIngredient` : `ingredient.toLowerCase().trim()`. -/
def normalizeIngredient (s : Str) : Str := trimStr (lowerStr s)

/-- The per-pair inclusion predicate used inside `matchIngredientsInList`
and `checkIngredientMatch`: the recipe-ingredient string contains the
selected one, or the selected one is strictly longer and contains the
recipe-ingredient string. -/
def ingPairMatch (recipeIng normalizedSelected : Str) : Bool :=
  hasSub recipeIng normalizedSelected ||
    (decide (recipeIng.length < normalizedSelected.length) &&
      hasSub normalizedSelected recipeIng)

/-- The deduplicated union (first occurrence kept, as a JavaScript `Set`)
of the normalized `ingredients` and `normalizedIngredients` entries. -/
def allIngredientsOf (r : Recipe) (ings : List Str) : List Str :=
  ((ings.map normalizeIngredient) ++
      ((r.normalizedIngredients.getD []).map normalizeIngredient)).foldl
    (fun acc x => if x ∈ acc then acc else acc ++ [x]) []

/-- `matchIngredientsInList recipe sel` : the pair of the match count and
the list of selected ingredients found in the recipe's ingredient set. -/
def matchIngredientsInList (r : Recipe) (sel : List Str) : Nat × List Str :=
  match r.ingredients with
  | none => (0, [])
  | some ings =>
    let allIngs := allIngredientsOf r ings
    let found := fun s => allIngs.any (fun ri => ingPairMatch ri (normalizeIngredient s))
    (sel.countP found, sel.filter found)

/-- `matchIngredientsInInstructions recipe sel` : how many selected
ingredients occur inside the lowercased instructions text. -/
def matchIngredientsInInstructions (r : Recipe) (sel : List Str) : Nat :=
  match r.instructions with
  | none => 0
  | some ins =>
    let insLower := lowerStr ins
    sel.countP (fun s => hasSub insLower (normalizeIngredient s))

/-- The scored-recipe record built by `scoreRecipe`. -/
structure ScoredMatch where
  recipe : Recipe
  score : ℚ
  primaryMatches : Nat
  secondaryMatches : Nat
  totalSelected : Nat
  matchedIngredients : List Str
deriving DecidableEq

/-- `scoreRecipe recipe sel` :
`score = primaryMatches * 1000 + secondaryMatches * 100 + completeness * 100`
with `completeness = primaryMatches / sel.length`. -/
def scoreRecipe (r : Recipe) (sel : List Str) : ScoredMatch :=
  if sel.length = 0 then ⟨r, 0, 0, 0, 0, []⟩
  else
    let ingredientMatch := matchIngredientsInList r sel
    let primaryMatches := ingredientMatch.1
    let secondaryMatches := matchIngredientsInInstructions r sel
    let completeness : ℚ := (primaryMatches : ℚ) / (sel.length : ℚ)
    ⟨r, (primaryMatches : ℚ) * 1000 + (secondaryMatches : ℚ) * 100 + completeness * 100,
      primaryMatches, secondaryMatches, sel.length, ingredientMatch.2⟩

/-- `checkIngredientMatch recipe ingredient` : the candidate pre-filter,
checking `normalizedIngredients` first and falling back to `ingredients`. -/
def checkIngredientMatch (r : Recipe) (ingredient : Str) : Bool :=
  (r.normalizedIngredients.getD []).any
      (fun normIng => ingPairMatch (normalizeIngredient normIng) ingredient) ||
    (r.ingredients.getD []).any
      (fun ing => ingPairMatch (normalizeIngredient ing) ingredient)

/-- The sort comparator of `findMatchingRecipes`, as the relation
"`a` may be placed before `b`" (comparator value ≤ 0): score descending
when scores differ by more than 0.1, then `primaryMatches` descending,
then `secondaryMatches` descending. -/
def jsLe (a b : ScoredMatch) : Bool :=
  if (1 : ℚ)/10 < |b.score - a.score| then decide (b.score ≤ a.score)
  else if a.primaryMatches ≠ b.primaryMatches then decide (b.primaryMatches ≤ a.primaryMatches)
  else decide (b.secondaryMatches ≤ a.secondaryMatches)

/-- Stable insertion of `x` into `l`, placing `x` before the first element
it may precede. -/
def insertLe (le : α → α → Bool) (x : α) : List α → List α
  | [] => [x]
  | y :: ys => if le x y then x :: y :: ys else y :: insertLe le x ys

/-- A sort honouring the comparator relation `le`, standing for
`Array.prototype.sort`. -/
def isortLe (le : α → α → Bool) : List α → List α
  | [] => []
  | x :: xs => insertLe le x (isortLe le xs)

/-- One candidate-collection step of the chunked scan: skip disliked or
already collected recipes, keep a recipe matching any selected
ingredient. -/
def candStep (dislikedIds normalizedSelected : List Str)
    (acc : List Recipe) (r : Recipe) : List Recipe :=
  if decide (r.id ∈ dislikedIds) || acc.any (fun x => decide (x.id = r.id)) then acc
  else if normalizedSelected.any (fun ing => checkIngredientMatch r ing) then acc ++ [r]
  else acc

/-- The chunked candidate scan: process recipes in chunks of 50 and stop
early once 150 candidates are collected.  The fuel argument (instantiated
with the scan length) only drives the recursion; each round consumes at
least one recipe. -/
def scanChunks (dislikedIds normalizedSelected : List Str) :
    Nat → List Recipe → List Recipe → List Recipe
  | _, acc, [] => acc
  | 0, acc, _ => acc
  | fuel + 1, acc, r :: rest =>
    let acc2 := ((r :: rest).take 50).foldl (candStep dislikedIds normalizedSelected) acc
    if 150 ≤ acc2.length then acc2
    else scanChunks dislikedIds normalizedSelected fuel acc2 ((r :: rest).drop 50)

/-- `getDislikedRecipeIds` (from `app.js`): the set of ids whose library
status is `dislike`; a failing store query is caught internally and
yields the empty set. -/
def getDislikedRecipeIds : Except Unit (List Str) → List Str
  | .ok ids => ids
  | .error _ => []

/-- `findMatchingRecipes` : the whole suggestion pipeline.  `recipesQuery`
models the Recipe Store read (its failure is caught by the surrounding
`try` and yields `[]`); `dislikedQuery` models the Preference Store read
consumed through `getDislikedRecipeIds`. -/
def findMatchingRecipes (recipesQuery : Except Unit (List Recipe))
    (dislikedQuery : Except Unit (List Str))
    (selectedIngredients : List Str) : List ScoredMatch :=
  if selectedIngredients.length = 0 then []
  else
    match recipesQuery with
    | .error _ => []
    | .ok allRecipes =>
      let normalizedSelected := selectedIngredients.map normalizeIngredient
      let dislikedIds := getDislikedRecipeIds dislikedQuery
      let recipesToScan := allRecipes.take 800
      let cands := scanChunks dislikedIds normalizedSelected recipesToScan.length [] recipesToScan
      let candidates := cands.take 500
      let scoredRecipes := candidates.map (fun r => scoreRecipe r normalizedSelected)
      let sorted := isortLe jsLe scoredRecipes
      (sorted.filter
          (fun m => decide (0 < m.primaryMatches) || decide (0 < m.secondaryMatches))).take 10

/-- The fuzzy subsequence counter of `scoreTermMatch`: how many characters
of `term` are found, in order, while scanning the title once. -/
def subseqCount : Str → Str → Nat
  | _, [] => 0
  | term, c :: cs =>
    match term with
    | [] => 0
    | t :: ts => if t = c then subseqCount ts cs + 1 else subseqCount (t :: ts) cs

/-- `scoreTermMatch term titleLower` : per-term title score of the search
engine — exact 1, whole-title prefix 0.9, substring 0.8, word-start 0.7,
else the subsequence ratio halved when that ratio reaches 0.6, else 0. -/
def scoreTermMatch (term titleLower : Str) : ℚ :=
  if titleLower = term then 1
  else if startsW titleLower term then 9/10
  else if hasSub titleLower term then 4/5
  else if (splitWs titleLower).any (fun w => startsW w term) then 7/10
  else
    let si := subseqCount term titleLower
    let fr : ℚ := (si : ℚ) / (term.length : ℚ)
    if 3/5 ≤ fr then fr * (1/2) else 0

/-- `scoreRecipeTitle terms titleLower` : the count of terms with a
non-zero score and the sum of those scores. -/
def scoreRecipeTitle (terms : List Str) (titleLower : Str) : Nat × ℚ :=
  terms.foldl
    (fun acc term =>
      let s := scoreTermMatch term titleLower
      if 0 < s then (acc.1 + 1, acc.2 + s) else acc)
    (0, 0)

/-- `findMatchingTerms terms text` : terms occurring in `text`
case-insensitively. -/
def findMatchingTerms (terms : List Str) (text : Str) : List Str :=
  if text = [] then []
  else
    let lower := lowerStr text
    terms.filter (fun t => hasSub lower t)

/-- The two-character separator used by `snippets.join('  ')`. -/
def twoSpaces : Str := [' ', ' ']

/-- The ellipsis used when a snippet is truncated. -/
def dots : Str := ['.', '.', '.']

/-- The loop body of `buildContextSnippet`: walk the matched terms, keep
the first window around each new term, stop after three snippets. -/
def snippetLoop (text lower : Str) (contextChars : Nat) :
    List Str → List Str → List Str → List Str
  | [], _, snips => snips
  | term :: rest, seen, snips =>
    match idxOfSub lower term with
    | none => snippetLoop text lower contextChars rest seen snips
    | some pos =>
      if term ∈ seen then snippetLoop text lower contextChars rest seen snips
      else
        let start := pos - contextChars
        let stop := min text.length (pos + term.length + contextChars)
        let core := trimStr ((text.drop start).take (stop - start))
        let snip := (if 0 < start then dots else []) ++ core ++
          (if stop < text.length then dots else [])
        let snips2 := snips ++ [snip]
        if 3 ≤ snips2.length then snips2
        else snippetLoop text lower contextChars rest (seen ++ [term]) snips2

/-- `buildContextSnippet text matchedTerms contextChars` : up to three
ellipsed context windows joined with two spaces. -/
def buildContextSnippet (text : Str) (matchedTerms : List Str) (contextChars : Nat) : Str :=
  if text = [] ∨ matchedTerms = [] then []
  else joinStrs twoSpaces (snippetLoop text (lowerStr text) contextChars matchedTerms [] [])

/-- A search result record. -/
structure SearchHit where
  recipe : Recipe
  matchedCount : Nat
  totalScore : ℚ
  totalTerms : Nat
  hitInTitle : Bool
  contextSnippet : Str
deriving DecidableEq

/-- The search sort comparator as "`a` may be placed before `b`":
title hits first, then matched count descending, then score descending. -/
def searchLe (a b : SearchHit) : Bool :=
  if a.hitInTitle ≠ b.hitInTitle then a.hitInTitle
  else if a.matchedCount ≠ b.matchedCount then decide (b.matchedCount ≤ a.matchedCount)
  else decide (b.totalScore ≤ a.totalScore)

/-- Scoring of one scanned recipe inside `searchRecipes`; `none` when the
recipe is skipped (missing/empty title or no matched term). -/
def searchScoreOne (terms : List Str) (r : Recipe) : Option SearchHit :=
  match r.title with
  | none => none
  | some title =>
    if title = [] then none
    else
      let titleLower := lowerStr title
      let ts := scoreRecipeTitle terms titleLower
      let ingredientsText := joinStrs [',', ' '] (r.ingredients.getD [])
      let instructionsText := r.instructions.getD []
      let bodyText := ingredientsText ++ [' '] ++ instructionsText
      let bodyMatchedTerms := findMatchingTerms terms bodyText
      let bodyMatched := bodyMatchedTerms.length
      let totalMatched := max ts.1 bodyMatched
      if totalMatched = 0 then none
      else
        let totalScore := ts.2 * 2 + (bodyMatched : ℚ) * (3/10)
        let hitInTitle := decide (0 < ts.1)
        let contextSnippet :=
          if hitInTitle = false ∧ 0 < bodyMatched then
            let ingTerms := findMatchingTerms terms ingredientsText
            let insTerms := findMatchingTerms terms instructionsText
            if ingTerms ≠ [] then buildContextSnippet ingredientsText ingTerms 20
            else if insTerms ≠ [] then buildContextSnippet instructionsText insTerms 25
            else []
          else []
        some ⟨r, totalMatched, totalScore, terms.length, hitInTitle, contextSnippet⟩

/-- `searchRecipes` : tokenize the query, score a bounded scan of the
store, sort, and return the top 15.  A failing store query is caught and
yields `[]`. -/
def searchRecipes (recipesQuery : Except Unit (List Recipe)) (query : Str) : List SearchHit :=
  if trimStr query = [] then []
  else
    let terms := (splitWs (trimStr (lowerStr query))).filter (fun t => decide (0 < t.length))
    if terms.length = 0 then []
    else
      match recipesQuery with
      | .error _ => []
      | .ok recipes =>
        let scored := (recipes.take 1000).foldl
          (fun acc r =>
            match searchScoreOne terms r with
            | none => acc
            | some hit => acc ++ [hit])
          []
        (isortLe searchLe scored).take 15

/-! ### Characterisation of the string primitives -/

/-- `startsW hay needle` holds exactly when `needle` is a prefix of `hay`. -/
theorem startsW_iff : ∀ hay needle : Str, startsW hay needle = true ↔ ∃ t, hay = needle ++ t := by
  intro hay
  induction hay with
  | nil =>
    intro needle
    cases needle with
    | nil => simp [startsW]
    | cons d ds => simp [startsW]
  | cons c cs ih =>
    intro needle
    cases needle with
    | nil => simp [startsW]
    | cons d ds =>
      rw [startsW, Bool.and_eq_true, decide_eq_true_eq, ih ds]
      constructor
      · rintro ⟨rfl, t, rfl⟩
        exact ⟨t, rfl⟩
      · rintro ⟨t, ht⟩
        rw [List.cons_append] at ht
        obtain ⟨h1, h2⟩ := List.cons_eq_cons.mp ht
        exact ⟨h1, t, h2⟩

/-- `hasSub hay needle` holds exactly when `needle` occurs contiguously in
`hay`. -/
theorem hasSub_iff : ∀ hay needle : Str, hasSub hay needle = true ↔ ∃ p q, hay = p ++ needle ++ q := by
  intro hay needle
  induction hay with
  | nil =>
    rw [hasSub, decide_eq_true_eq]
    constructor
    · rintro rfl
      exact ⟨[], [], rfl⟩
    · rintro ⟨p, q, hpq⟩
      exact (List.append_eq_nil.mp (List.append_eq_nil.mp hpq.symm).1).2
  | cons c cs ih =>
    rw [hasSub, Bool.or_eq_true, startsW_iff, ih]
    constructor
    · rintro (⟨t, ht⟩ | ⟨p, q, rfl⟩)
      · exact ⟨[], t, by simpa using ht⟩
      · exact ⟨c :: p, q, rfl⟩
    · rintro ⟨p, q, hpq⟩
      cases p with
      | nil =>
        left
        exact ⟨q, by simpa using hpq⟩
      | cons a p' =>
        right
        rw [List.cons_append, List.cons_append] at hpq
        obtain ⟨h1, h2⟩ := List.cons_eq_cons.mp hpq
        exact ⟨p', q, by simpa using h2⟩

/-! ### Sorting lemmas -/

/-- Membership through `insertLe`. -/
theorem mem_insertLe {le : α → α → Bool} {x a : α} :
    ∀ {l : List α}, a ∈ insertLe le x l ↔ a = x ∨ a ∈ l := by
  intro l
  induction l with
  | nil => simp [insertLe]
  | cons y ys ih =>
    by_cases h : le x y = true
    · simp [insertLe, h]
    · simp [insertLe, h, ih]
      tauto

/-- Membership through `isortLe`. -/
theorem mem_isortLe {le : α → α → Bool} {a : α} :
    ∀ {l : List α}, a ∈ isortLe le l ↔ a ∈ l := by
  intro l
  induction l with
  | nil => simp [isortLe]
  | cons y ys ih => simp [isortLe, mem_insertLe, ih]

/-- Inserting into a comparator-honouring list keeps it
comparator-honouring, given totality and transitivity on a set `S`
containing every element in play. -/
theorem pairwise_insertLe {le : α → α → Bool} {S : α → Prop} {x : α} {l : List α}
    (htot : ∀ a b, S a → S b → le a b = true ∨ le b a = true)
    (htrans : ∀ a b c, S a → S b → S c → le a b = true → le b c = true → le a c = true)
    (hx : S x) (hl : ∀ a ∈ l, S a)
    (hp : List.Pairwise (fun a b => le a b = true) l) :
    List.Pairwise (fun a b => le a b = true) (insertLe le x l) := by
  induction l with
  | nil => simp [insertLe]
  | cons y ys ih =>
    obtain ⟨hy, hys⟩ := List.pairwise_cons.mp hp
    by_cases h : le x y = true
    · rw [insertLe, if_pos h]
      refine List.pairwise_cons.mpr ⟨?_, hp⟩
      intro b hb
      rcases List.mem_cons.mp hb with rfl | hb'
      · exact h
      · exact htrans x y b hx (hl y (List.mem_cons_self y ys)) (hl b hb) h (hy b hb')
    · rw [insertLe, if_neg h]
      refine List.pairwise_cons.mpr ⟨?_, ih (fun a ha => hl a (List.mem_cons_of_mem y ha)) hys⟩
      intro b hb
      rcases mem_insertLe.mp hb with rfl | hb'
      · rcases htot b y hx (hl y (List.mem_cons_self y ys)) with h1 | h1
        · exact absurd h1 h
        · exact h1
      · exact hy b hb'

/-- The insertion sort honours its comparator on every pair (not only
adjacent ones), given totality and transitivity on a covering set. -/
theorem pairwise_isortLe {le : α → α → Bool} {S : α → Prop}
    (htot : ∀ a b, S a → S b → le a b = true ∨ le b a = true)
    (htrans : ∀ a b c, S a → S b → S c → le a b = true → le b c = true → le a c = true) :
    ∀ {l : List α}, (∀ a ∈ l, S a) →
      List.Pairwise (fun a b => le a b = true) (isortLe le l) := by
  intro l
  induction l with
  | nil => simp [isortLe]
  | cons x xs ih =>
    intro hl
    rw [isortLe]
    exact pairwise_insertLe htot htrans (hl x (List.mem_cons_self x xs))
      (fun a ha => hl a (List.mem_cons_of_mem x (mem_isortLe.mp ha)))
      (ih (fun a ha => hl a (List.mem_cons_of_mem x ha)))

/-! ### The matcher comparator on reachable scores -/

/-- The invariant satisfied by every record produced by `scoreRecipe`
against a selection of `n` ingredients: both match counts are bounded by
`n` and the score obeys the weighting formula. -/
def scoreInv (n : Nat) (m : ScoredMatch) : Prop :=
  m.primaryMatches ≤ n ∧ m.secondaryMatches ≤ n ∧
    m.score = (m.primaryMatches : ℚ) * 1000 + (m.secondaryMatches : ℚ) * 100 +
      ((m.primaryMatches : ℚ) / (n : ℚ)) * 100

/-- The primary count is bounded by the selection size. -/
theorem matchIngredientsInList_fst_le (r : Recipe) (sel : List Str) :
    (matchIngredientsInList r sel).1 ≤ sel.length := by
  unfold matchIngredientsInList
  cases r.ingredients with
  | none => simp
  | some ings => simpa using List.countP_le_length _

/-- The secondary count is bounded by the selection size. -/
theorem matchIngredientsInInstructions_le (r : Recipe) (sel : List Str) :
    matchIngredientsInInstructions r sel ≤ sel.length := by
  unfold matchIngredientsInInstructions
  cases r.instructions with
  | none => simp
  | some ins => simpa using List.countP_le_length _

/-- `scoreRecipe` wraps exactly the recipe it is given. -/
theorem scoreRecipe_recipe (r : Recipe) (sel : List Str) : (scoreRecipe r sel).recipe = r := by
  unfold scoreRecipe
  split <;> rfl

/-- Every record produced by `scoreRecipe` against a non-empty selection
satisfies `scoreInv`. -/
theorem scoreInv_scoreRecipe (r : Recipe) (sel : List Str) (h : sel.length ≠ 0) :
    scoreInv sel.length (scoreRecipe r sel) := by
  unfold scoreRecipe scoreInv
  rw [if_neg h]
  exact ⟨matchIngredientsInList_fst_le r sel, matchIngredientsInInstructions_le r sel, by ring⟩

/-- The matcher comparator is total. -/
theorem jsLe_total (a b : ScoredMatch) : jsLe a b = true ∨ jsLe b a = true := by
  unfold jsLe
  rw [abs_sub_comm a.score b.score]
  split_ifs with h1 h2 h3 <;> simp only [decide_eq_true_eq, ne_eq] at * <;>
    first
    | exact le_total b.score a.score
    | omega

/-- Two reachable scores within the 0.1 tolerance band differ exactly by
the completeness term, and their secondary counts are then tied to the
primary counts. -/
theorem score_band {n : Nat} {a b : ScoredMatch} (hn : 1 ≤ n)
    (ha : scoreInv n a) (hb : scoreInv n b)
    (hband : |a.score - b.score| ≤ 1/10) :
    a.score - b.score =
      ((a.primaryMatches : ℚ) - (b.primaryMatches : ℚ)) * 100 / (n : ℚ) ∧
    (a.secondaryMatches : ℚ) - (b.secondaryMatches : ℚ) =
      (-10) * ((a.primaryMatches : ℚ) - (b.primaryMatches : ℚ)) := by
  obtain ⟨hpa, hsa, hA⟩ := ha
  obtain ⟨hpb, hsb, hB⟩ := hb
  have hn0 : (0 : ℚ) < (n : ℚ) := by exact_mod_cast Nat.lt_of_lt_of_le Nat.zero_lt_one hn
  have hn1 : (1 : ℚ) ≤ (n : ℚ) := by exact_mod_cast hn
  have hpaq : (a.primaryMatches : ℚ) ≤ (n : ℚ) := by exact_mod_cast hpa
  have hpbq : (b.primaryMatches : ℚ) ≤ (n : ℚ) := by exact_mod_cast hpb
  have hsaq : (a.secondaryMatches : ℚ) ≤ (n : ℚ) := by exact_mod_cast hsa
  have hsbq : (b.secondaryMatches : ℚ) ≤ (n : ℚ) := by exact_mod_cast hsb
  have hpa0 : (0 : ℚ) ≤ (a.primaryMatches : ℚ) := Nat.cast_nonneg _
  have hpb0 : (0 : ℚ) ≤ (b.primaryMatches : ℚ) := Nat.cast_nonneg _
  have hsa0 : (0 : ℚ) ≤ (a.secondaryMatches : ℚ) := Nat.cast_nonneg _
  have hsb0 : (0 : ℚ) ≤ (b.secondaryMatches : ℚ) := Nat.cast_nonneg _
  obtain ⟨hlo, hhi⟩ := abs_le.mp hband
  set q : ℤ := 10 * ((a.primaryMatches : ℤ) - (b.primaryMatches : ℤ)) +
      ((a.secondaryMatches : ℤ) - (b.secondaryMatches : ℤ)) with hqdef
  have hqcast : (q : ℚ) = 10 * ((a.primaryMatches : ℚ) - (b.primaryMatches : ℚ)) +
      ((a.secondaryMatches : ℚ) - (b.secondaryMatches : ℚ)) := by
    rw [hqdef]; push_cast; ring
  have key : (a.score - b.score) * (n : ℚ) =
      100 * (q : ℚ) * (n : ℚ) +
        ((a.primaryMatches : ℚ) - (b.primaryMatches : ℚ)) * 100 := by
    rw [hA, hB, hqcast]
    field_simp
    ring
  have hup : (a.score - b.score) * (n : ℚ) ≤ (1/10) * (n : ℚ) :=
    mul_le_mul_of_nonneg_right hhi (le_of_lt hn0)
  have hdown : (-(1/10) : ℚ) * (n : ℚ) ≤ (a.score - b.score) * (n : ℚ) :=
    mul_le_mul_of_nonneg_right hlo (le_of_lt hn0)
  have hq0 : q = 0 := by
    by_contra hq
    have h1 : q ≤ -1 ∨ 1 ≤ q := by omega
    rcases h1 with h1 | h1
    · have h1q : (q : ℚ) ≤ -1 := by exact_mod_cast h1
      have hqn : (q : ℚ) * (n : ℚ) ≤ (-1) * (n : ℚ) :=
        mul_le_mul_of_nonneg_right h1q (le_of_lt hn0)
      linarith
    · have h1q : (1 : ℚ) ≤ (q : ℚ) := by exact_mod_cast h1
      have hqn : (1 : ℚ) * (n : ℚ) ≤ (q : ℚ) * (n : ℚ) :=
        mul_le_mul_of_nonneg_right h1q (le_of_lt hn0)
      linarith
  rw [hq0] at key hqcast
  push_cast at key hqcast
  constructor
  · rw [eq_div_iff (ne_of_gt hn0)]
    linarith
  · linarith

/-- Inside the tolerance band, a weakly larger primary count forces a
weakly larger score. -/
theorem band_score_le {n : Nat} {a b : ScoredMatch} (hn : 1 ≤ n)
    (ha : scoreInv n a) (hb : scoreInv n b)
    (hband : |a.score - b.score| ≤ 1/10)
    (hp : b.primaryMatches ≤ a.primaryMatches) : b.score ≤ a.score := by
  obtain ⟨h1, _⟩ := score_band hn ha hb hband
  have hn0 : (0 : ℚ) < (n : ℚ) := by exact_mod_cast Nat.lt_of_lt_of_le Nat.zero_lt_one hn
  have hpq : (b.primaryMatches : ℚ) ≤ (a.primaryMatches : ℚ) := by exact_mod_cast hp
  have h2 : (0 : ℚ) ≤ a.score - b.score := by
    rw [h1]
    exact div_nonneg (by linarith) (le_of_lt hn0)
  linarith

/-- Inside the tolerance band, equal primary counts force equal scores and
equal secondary counts. -/
theorem band_eq_of_p_eq {n : Nat} {a b : ScoredMatch} (hn : 1 ≤ n)
    (ha : scoreInv n a) (hb : scoreInv n b)
    (hband : |a.score - b.score| ≤ 1/10)
    (hp : a.primaryMatches = b.primaryMatches) :
    a.score = b.score ∧ a.secondaryMatches = b.secondaryMatches := by
  obtain ⟨h1, h2⟩ := score_band hn ha hb hband
  have hdp : (a.primaryMatches : ℚ) - (b.primaryMatches : ℚ) = 0 := by
    rw [hp]; ring
  constructor
  · have : a.score - b.score = 0 := by rw [h1, hdp]; ring
    linarith
  · have h3 : (a.secondaryMatches : ℚ) - (b.secondaryMatches : ℚ) = 0 := by
      rw [h2, hdp]; ring
    have h4 : (a.secondaryMatches : ℚ) = (b.secondaryMatches : ℚ) := by linarith
    exact_mod_cast h4

/-- A gap larger than the tolerance, together with the comparator's score
order, gives a strict gap. -/
theorem gap_strict {x y : ℚ} (habs : 1/10 < |y - x|) (hle : y ≤ x) : y + 1/10 < x := by
  rw [abs_sub_comm, abs_of_nonneg (by linarith)] at habs
  linarith

/-- Destructuring `jsLe` inside the tolerance band. -/
theorem jsLe_tie_dest {a b : ScoredMatch} (hab : ¬ (1 : ℚ)/10 < |b.score - a.score|)
    (h : jsLe a b = true) :
    b.primaryMatches ≤ a.primaryMatches ∧
      (a.primaryMatches = b.primaryMatches → b.secondaryMatches ≤ a.secondaryMatches) := by
  unfold jsLe at h
  rw [if_neg hab] at h
  by_cases hpe : a.primaryMatches = b.primaryMatches
  · rw [if_neg (fun hne => hne hpe)] at h
    exact ⟨le_of_eq hpe.symm, fun _ => by simpa using h⟩
  · rw [if_pos hpe] at h
    exact ⟨by simpa using h, fun hcontra => absurd hcontra hpe⟩

/-- The matcher comparator is transitive on records satisfying the
`scoreRecipe` invariant for one common selection size. -/
theorem jsLe_trans {n : Nat} (hn : 1 ≤ n) {a b c : ScoredMatch}
    (ha : scoreInv n a) (hb : scoreInv n b) (hc : scoreInv n c)
    (h1 : jsLe a b = true) (h2 : jsLe b c = true) : jsLe a c = true := by
  by_cases hab : (1 : ℚ)/10 < |b.score - a.score| <;>
    by_cases hbc : (1 : ℚ)/10 < |c.score - b.score|
  · -- gap, gap
    unfold jsLe at h1 h2
    rw [if_pos hab] at h1
    rw [if_pos hbc] at h2
    have g1 := gap_strict hab (by simpa using h1)
    have g2 := gap_strict hbc (by simpa using h2)
    have hac : (1 : ℚ)/10 < |c.score - a.score| := by
      rw [abs_sub_comm, abs_of_nonneg (by linarith)]
      linarith
    unfold jsLe
    rw [if_pos hac]
    simp only [decide_eq_true_eq]
    linarith
  · -- gap, tie
    unfold jsLe at h1
    rw [if_pos hab] at h1
    have g1 := gap_strict hab (by simpa using h1)
    obtain ⟨hpcb, _⟩ := jsLe_tie_dest hbc h2
    have hband_bc : |b.score - c.score| ≤ 1/10 := by
      rw [abs_sub_comm]; exact not_lt.mp hbc
    have hcb := band_score_le hn hb hc hband_bc hpcb
    have hac : (1 : ℚ)/10 < |c.score - a.score| := by
      rw [abs_sub_comm, abs_of_nonneg (by linarith)]
      linarith
    unfold jsLe
    rw [if_pos hac]
    simp only [decide_eq_true_eq]
    linarith
  · -- tie, gap
    obtain ⟨hpba, _⟩ := jsLe_tie_dest hab h1
    have hband_ab : |a.score - b.score| ≤ 1/10 := by
      rw [abs_sub_comm]; exact not_lt.mp hab
    have hba := band_score_le hn ha hb hband_ab hpba
    unfold jsLe at h2
    rw [if_pos hbc] at h2
    have g2 := gap_strict hbc (by simpa using h2)
    have hac : (1 : ℚ)/10 < |c.score - a.score| := by
      rw [abs_sub_comm, abs_of_nonneg (by linarith)]
      linarith
    unfold jsLe
    rw [if_pos hac]
    simp only [decide_eq_true_eq]
    linarith
  · -- tie, tie
    obtain ⟨hpba, hsba⟩ := jsLe_tie_dest hab h1
    obtain ⟨hpcb, hscb⟩ := jsLe_tie_dest hbc h2
    have hband_ab : |a.score - b.score| ≤ 1/10 := by
      rw [abs_sub_comm]; exact not_lt.mp hab
    have hband_bc : |b.score - c.score| ≤ 1/10 := by
      rw [abs_sub_comm]; exact not_lt.mp hbc
    have hba := band_score_le hn ha hb hband_ab hpba
    have hcb := band_score_le hn hb hc hband_bc hpcb
    unfold jsLe
    by_cases hac : (1 : ℚ)/10 < |c.score - a.score|
    · rw [if_pos hac]
      simp only [decide_eq_true_eq]
      linarith
    · rw [if_neg hac]
      by_cases hpe : a.primaryMatches = c.primaryMatches
      · rw [if_neg (fun hne => hne hpe)]
        have hpab : a.primaryMatches = b.primaryMatches := by omega
        have hpbc : b.primaryMatches = c.primaryMatches := by omega
        have hs1 := hsba hpab
        have hs2 := hscb hpbc
        simp only [decide_eq_true_eq]
        omega
      · rw [if_pos hpe]
        simp only [decide_eq_true_eq]
        omega

/-- The ranking relation claimed for the matcher output: a strict score
gap beyond the tolerance, or a within-tolerance pair ordered by primary
then secondary matches. -/
def rankedBefore (a b : ScoredMatch) : Prop :=
  b.score + 1/10 < a.score ∨
    (|a.score - b.score| ≤ 1/10 ∧ b.primaryMatches ≤ a.primaryMatches ∧
      (a.primaryMatches = b.primaryMatches → b.secondaryMatches ≤ a.secondaryMatches))

/-- The comparator relation implies the claimed ranking relation. -/
theorem jsLe_rankedBefore {a b : ScoredMatch} (h : jsLe a b = true) : rankedBefore a b := by
  by_cases hab : (1 : ℚ)/10 < |b.score - a.score|
  · left
    unfold jsLe at h
    rw [if_pos hab] at h
    exact gap_strict hab (by simpa using h)
  · right
    obtain ⟨h1, h2⟩ := jsLe_tie_dest hab h
    exact ⟨by rw [abs_sub_comm]; exact not_lt.mp hab, h1, h2⟩

/-! ### Candidate-scan invariants -/

/-- What the chunked scan guarantees about every collected candidate:
not disliked, and matching some selected ingredient in its ingredient
arrays. -/
def candOk (dislikedIds normalizedSelected : List Str) (r : Recipe) : Prop :=
  r.id ∉ dislikedIds ∧
    normalizedSelected.any (fun ing => checkIngredientMatch r ing) = true

/-- One chunk of the scan preserves the candidate guarantee. -/
theorem foldl_candStep_ok (d nsel : List Str) :
    ∀ (chunk acc : List Recipe),
      (∀ x ∈ acc, candOk d nsel x) →
      ∀ x ∈ chunk.foldl (candStep d nsel) acc, candOk d nsel x := by
  intro chunk
  induction chunk with
  | nil =>
    intro acc h
    simpa using h
  | cons r rest ih =>
    intro acc h
    rw [List.foldl_cons]
    apply ih
    intro x hx
    unfold candStep at hx
    split_ifs at hx with h1 h2
    · exact h x hx
    · rcases List.mem_append.mp hx with hx' | hx'
      · exact h x hx'
      · have hxr : x = r := by simpa using hx'
        subst hxr
        refine ⟨?_, h2⟩
        simp only [Bool.or_eq_true, decide_eq_true_eq, not_or] at h1
        exact fun hmem => h1.1 hmem
    · exact h x hx

/-- The whole chunked scan yields only guaranteed candidates. -/
theorem scanChunks_ok (d nsel : List Str) :
    ∀ (fuel : Nat) (rest acc : List Recipe),
      (∀ x ∈ acc, candOk d nsel x) →
      ∀ x ∈ scanChunks d nsel fuel acc rest, candOk d nsel x := by
  intro fuel
  induction fuel with
  | zero =>
    intro rest acc h
    cases rest with
    | nil => simpa [scanChunks] using h
    | cons r rs => simpa [scanChunks] using h
  | succ fuel ih =>
    intro rest acc h
    cases rest with
    | nil => simpa [scanChunks] using h
    | cons r rs =>
      intro x hx
      simp only [scanChunks] at hx
      have h2 := foldl_candStep_ok d nsel ((r :: rs).take 50) acc h
      split_ifs at hx with hlen
      · exact h2 x hx
      · exact ih _ _ h2 x hx

/-- Every record in the matcher output wraps a recipe the candidate scan
admitted: not disliked, and matching some normalized selected ingredient
through `checkIngredientMatch`. -/
theorem mem_findMatchingRecipes {rq : Except Unit (List Recipe)}
    {pq : Except Unit (List Str)} {sel : List Str} {m : ScoredMatch}
    (hm : m ∈ findMatchingRecipes rq pq sel) :
    m.recipe.id ∉ getDislikedRecipeIds pq ∧
      (sel.map normalizeIngredient).any (fun ing => checkIngredientMatch m.recipe ing) = true := by
  unfold findMatchingRecipes at hm
  split_ifs at hm with hsel
  · simp at hm
  · cases rq with
    | error e => simp at hm
    | ok allRecipes =>
      have h1 := List.mem_of_mem_take hm
      have h2 := List.mem_of_mem_filter h1
      have h3 := mem_isortLe.mp h2
      obtain ⟨r, hr, rfl⟩ := List.mem_map.mp h3
      have h4 := List.mem_of_mem_take hr
      have h5 := scanChunks_ok (getDislikedRecipeIds pq) (sel.map normalizeIngredient) _ _ _
        (fun x hx => absurd hx (List.not_mem_nil x)) r h4
      rw [scoreRecipe_recipe]
      exact h5

/-! ### The search comparator -/

/-- The search comparator is total. -/
theorem searchLe_total (a b : SearchHit) : searchLe a b = true ∨ searchLe b a = true := by
  unfold searchLe
  by_cases h : a.hitInTitle = b.hitInTitle
  · by_cases hm : a.matchedCount = b.matchedCount
    · rcases le_total b.totalScore a.totalScore with hts | hts
      · left
        rw [if_neg (fun hne => hne h), if_neg (fun hne => hne hm)]
        simpa using hts
      · right
        rw [if_neg (fun hne => hne h.symm), if_neg (fun hne => hne hm.symm)]
        simpa using hts
    · rcases le_or_lt b.matchedCount a.matchedCount with hmm | hmm
      · left
        rw [if_neg (fun hne => hne h), if_pos hm]
        simpa using hmm
      · right
        rw [if_neg (fun hne => hne h.symm), if_pos (Ne.symm hm)]
        simpa using le_of_lt hmm
  · cases hA : a.hitInTitle
    · right
      cases hB : b.hitInTitle
      · exact absurd (hA.trans hB.symm) h
      · simp
    · left
      cases hB : b.hitInTitle
      · simp
      · exact absurd (hA.trans hB.symm) h

/-- The search comparator is transitive. -/
theorem searchLe_trans {a b c : SearchHit}
    (h1 : searchLe a b = true) (h2 : searchLe b c = true) : searchLe a c = true := by
  unfold searchLe at h1 h2 ⊢
  by_cases hab : a.hitInTitle = b.hitInTitle <;> by_cases hbc : b.hitInTitle = c.hitInTitle
  · rw [if_neg (fun hne => hne hab)] at h1
    rw [if_neg (fun hne => hne hbc)] at h2
    rw [if_neg (fun hne => hne (hab.trans hbc))]
    by_cases hm1 : a.matchedCount = b.matchedCount <;>
      by_cases hm2 : b.matchedCount = c.matchedCount
    · rw [if_neg (fun hne => hne hm1)] at h1
      rw [if_neg (fun hne => hne hm2)] at h2
      rw [if_neg (fun hne => hne (hm1.trans hm2))]
      simp only [decide_eq_true_eq] at h1 h2 ⊢
      linarith
    · rw [if_neg (fun hne => hne hm1)] at h1
      rw [if_pos hm2] at h2
      simp only [decide_eq_true_eq] at h1 h2
      rw [if_pos (show a.matchedCount ≠ c.matchedCount by omega)]
      simp only [decide_eq_true_eq]
      omega
    · rw [if_pos hm1] at h1
      rw [if_neg (fun hne => hne hm2)] at h2
      simp only [decide_eq_true_eq] at h1 h2
      rw [if_pos (show a.matchedCount ≠ c.matchedCount by omega)]
      simp only [decide_eq_true_eq]
      omega
    · rw [if_pos hm1] at h1
      rw [if_pos hm2] at h2
      simp only [decide_eq_true_eq] at h1 h2
      rw [if_pos (show a.matchedCount ≠ c.matchedCount by omega)]
      simp only [decide_eq_true_eq]
      omega
  · rw [if_pos hbc] at h2
    have hac : a.hitInTitle ≠ c.hitInTitle := by rw [hab]; exact hbc
    rw [if_pos hac, hab]
    exact h2
  · rw [if_pos hab] at h1
    have hac : a.hitInTitle ≠ c.hitInTitle := by rw [← hbc]; exact hab
    rw [if_pos hac]
    exact h1
  · rw [if_pos hab] at h1
    rw [if_pos hbc] at h2
    exact absurd (h1.trans h2.symm) hab

/-- The ranking relation claimed for the search output. -/
def searchRankedBefore (a b : SearchHit) : Prop :=
  (b.hitInTitle = true → a.hitInTitle = true) ∧
    (a.hitInTitle = b.hitInTitle → b.matchedCount ≤ a.matchedCount) ∧
    (a.hitInTitle = b.hitInTitle → a.matchedCount = b.matchedCount →
      b.totalScore ≤ a.totalScore)

/-- The search comparator implies the claimed ranking relation. -/
theorem searchLe_rankedBefore {a b : SearchHit} (h : searchLe a b = true) :
    searchRankedBefore a b := by
  unfold searchLe at h
  by_cases hab : a.hitInTitle = b.hitInTitle
  · rw [if_neg (fun hne => hne hab)] at h
    refine ⟨fun hb => by rw [hab]; exact hb, ?_, ?_⟩
    · intro _
      by_cases hm : a.matchedCount = b.matchedCount
      · exact le_of_eq hm.symm
      · rw [if_pos hm] at h
        simpa using h
    · intro _ hm
      rw [if_neg (fun hne => hne hm)] at h
      simpa using h
  · rw [if_pos hab] at h
    exact ⟨fun _ => h, fun he => absurd he hab, fun he _ => absurd he hab⟩

/-! ### Concrete demonstration inputs -/

/-- The selected ingredient of the instruction-only scenario. -/
def saltStr : Str := ['s', 'a', 'l', 't']

/-- The recipe of the instruction-only scenario: salt appears in the
instructions only. -/
def r2demo : Recipe :=
  { id := ['r', '2'],
    ingredients := some [['s', 'u', 'g', 'a', 'r']],
    instructions := some
      ['a', 'd', 'd', ' ', 'a', ' ', 'p', 'i', 'n', 'c', 'h', ' ', 'o', 'f', ' ',
        's', 'a', 'l', 't'] }

/-- The string `chicken`. -/
def chickenStr : Str := ['c', 'h', 'i', 'c', 'k', 'e', 'n']

/-- The string `chicken breast`. -/
def chickenBreastStr : Str :=
  ['c', 'h', 'i', 'c', 'k', 'e', 'n', ' ', 'b', 'r', 'e', 'a', 's', 't']

/-- A selection of eleven pairwise non-matching ingredients. -/
def selEleven : List Str :=
  [['i', '0'], ['i', '1'], ['i', '2'], ['i', '3'], ['i', '4'], ['i', '5'],
    ['i', '6'], ['i', '7'], ['i', '8'], ['i', '9'], ['t', 'e', 'n']]

/-- A recipe with one primary match against `selEleven` and no secondary
matches. -/
def recipePrimaryOne : Recipe := { id := ['a'], ingredients := some [['i', '0']] }

/-- A recipe with no primary match against `selEleven` but all eleven
selected ingredients in its instructions. -/
def recipeSecondaryEleven : Recipe :=
  { id := ['b'],
    ingredients := some [['q', 'q']],
    instructions := some
      ['i', '0', ' ', 'i', '1', ' ', 'i', '2', ' ', 'i', '3', ' ', 'i', '4', ' ',
        'i', '5', ' ', 'i', '6', ' ', 'i', '7', ' ', 'i', '8', ' ', 'i', '9', ' ',
        't', 'e', 'n'] }

/-- A one-ingredient selection. -/
def selSingle : List Str := [['a', 'a']]

/-- A recipe whose ingredient list matches `selSingle`. -/
def recipeWithAA : Recipe := { id := ['c'], ingredients := some [['a', 'a']] }

/-- A recipe whose ingredient list does not match `selSingle`. -/
def recipeWithZZ : Recipe := { id := ['d'], ingredients := some [['z', 'z']] }

/-- The two-ingredient selection of the exact-match scenario. -/
def eggsFlourSel : List Str :=
  [['e', 'g', 'g', 's'], ['f', 'l', 'o', 'u', 'r']]

/-- The recipe of the exact-match scenario. -/
def recipeEggs : Recipe :=
  { id := ['r', '1'],
    ingredients := some
      [['e', 'g', 'g', 's'], ['f', 'l', 'o', 'u', 'r'], ['m', 'i', 'l', 'k']],
    instructions := some ['m', 'i', 'x', ' ', 'a', 'n', 'd', ' ', 'b', 'a', 'k', 'e'] }

/-! ### Claim theorems -/

/-- C1 (counterexample): with the store holding exactly the scenario
recipe `r2` (salt only in its instructions) and nothing disliked,
`findMatchingRecipes(["salt"])` does NOT return `r2` with
`primaryMatches = 0`, `secondaryMatches = 1`, `score = 100`: the output
contains no such entry. -/
theorem claim_C1_counterexample :
    ¬ ∃ m ∈ findMatchingRecipes (.ok [r2demo]) (.ok []) [saltStr],
        m.recipe.id = r2demo.id ∧ m.primaryMatches = 0 ∧ m.secondaryMatches = 1 ∧
          m.score = 100 := by decide

/-- C1 (amended): in the instruction-only scenario the output is empty —
`r2` is rejected by the candidate pre-filter (`checkIngredientMatch` is
false for `salt`), even though `scoreRecipe` alone would have produced
`primaryMatches = 0`, `secondaryMatches = 1`, `score = 100`. -/
theorem claim_C1_amended :
    findMatchingRecipes (.ok [r2demo]) (.ok []) [saltStr] = [] ∧
      (scoreRecipe r2demo (List.map normalizeIngredient [saltStr])).primaryMatches = 0 ∧
      (scoreRecipe r2demo (List.map normalizeIngredient [saltStr])).secondaryMatches = 1 ∧
      (scoreRecipe r2demo (List.map normalizeIngredient [saltStr])).score = 100 ∧
      checkIngredientMatch r2demo (normalizeIngredient saltStr) = false := by
  refine ⟨by decide, by decide, by decide, ?_, by decide⟩
  have h := (scoreInv_scoreRecipe r2demo (List.map normalizeIngredient [saltStr]) (by decide)).2.2
  rw [show (scoreRecipe r2demo (List.map normalizeIngredient [saltStr])).primaryMatches = 0
        from by decide,
      show (scoreRecipe r2demo (List.map normalizeIngredient [saltStr])).secondaryMatches = 1
        from by decide,
      show (List.map normalizeIngredient [saltStr]).length = 1 from by decide] at h
  rw [h]
  norm_num

/-- C2 (counterexample): with eleven selected ingredients, a recipe with
one primary match and no secondary matches scores strictly below a recipe
with no primary matches and eleven secondary matches — a primary match
does not dominate arbitrarily many secondary matches. -/
theorem claim_C2_counterexample :
    (scoreRecipe recipeSecondaryEleven selEleven).primaryMatches <
        (scoreRecipe recipePrimaryOne selEleven).primaryMatches ∧
      (scoreRecipe recipePrimaryOne selEleven).score <
        (scoreRecipe recipeSecondaryEleven selEleven).score := by
  constructor
  · decide
  · have hA := (scoreInv_scoreRecipe recipePrimaryOne selEleven (by decide)).2.2
    have hB := (scoreInv_scoreRecipe recipeSecondaryEleven selEleven (by decide)).2.2
    rw [show (scoreRecipe recipePrimaryOne selEleven).primaryMatches = 1 from by decide,
        show (scoreRecipe recipePrimaryOne selEleven).secondaryMatches = 0 from by decide,
        show selEleven.length = 11 from by decide] at hA
    rw [show (scoreRecipe recipeSecondaryEleven selEleven).primaryMatches = 0 from by decide,
        show (scoreRecipe recipeSecondaryEleven selEleven).secondaryMatches = 11 from by decide,
        show selEleven.length = 11 from by decide] at hB
    rw [hA, hB]
    norm_num

/-- C2 (amended): for a fixed non-empty selection of at most ten
ingredients, a strictly larger primary-match count forces a strictly
larger `scoreRecipe` score, whatever the secondary counts are. -/
theorem claim_C2_amended {sel : List Str} {a b : Recipe}
    (hne : sel ≠ []) (hsmall : sel.length ≤ 10)
    (hp : (scoreRecipe b sel).primaryMatches < (scoreRecipe a sel).primaryMatches) :
    (scoreRecipe b sel).score < (scoreRecipe a sel).score := by
  have hlen : sel.length ≠ 0 := fun h0 => hne (List.length_eq_zero.mp h0)
  have hn : 1 ≤ sel.length := Nat.one_le_iff_ne_zero.mpr hlen
  obtain ⟨hpa, hsa, hA⟩ := scoreInv_scoreRecipe a sel hlen
  obtain ⟨hpb, hsb, hB⟩ := scoreInv_scoreRecipe b sel hlen
  have hn0 : (0 : ℚ) < (sel.length : ℚ) := by
    exact_mod_cast Nat.lt_of_lt_of_le Nat.zero_lt_one hn
  have h1 : ((scoreRecipe b sel).primaryMatches : ℚ) + 1 ≤
      ((scoreRecipe a sel).primaryMatches : ℚ) := by exact_mod_cast hp
  have h2 : ((scoreRecipe b sel).secondaryMatches : ℚ) ≤ 10 := by
    exact_mod_cast le_trans hsb hsmall
  have h3 : (0 : ℚ) ≤ ((scoreRecipe a sel).secondaryMatches : ℚ) := Nat.cast_nonneg _
  have h4 : (0 : ℚ) <
      (((scoreRecipe a sel).primaryMatches : ℚ) -
        ((scoreRecipe b sel).primaryMatches : ℚ)) / (sel.length : ℚ) :=
    div_pos (by linarith) hn0
  have h5 : ((scoreRecipe a sel).primaryMatches : ℚ) / (sel.length : ℚ) -
      ((scoreRecipe b sel).primaryMatches : ℚ) / (sel.length : ℚ) =
      (((scoreRecipe a sel).primaryMatches : ℚ) -
        ((scoreRecipe b sel).primaryMatches : ℚ)) / (sel.length : ℚ) := by ring
  rw [hA, hB]
  linarith

/-- C2 (witness): the amended dominance at a concrete small selection. -/
theorem claim_C2_amended_witness :
    (scoreRecipe recipeWithZZ selSingle).score < (scoreRecipe recipeWithAA selSingle).score :=
  claim_C2_amended (by decide) (by decide) (by decide)

/-- C3: in every matcher output, for any result placed anywhere before
another, either its score exceeds the other's by more than 0.1, or the
two scores are within 0.1 and the primary-match counts are ordered, with
secondary counts deciding exact primary ties. -/
theorem claim_C3_ranking (recipesQuery : Except Unit (List Recipe))
    (dislikedQuery : Except Unit (List Str)) (sel : List Str) :
    List.Pairwise rankedBefore (findMatchingRecipes recipesQuery dislikedQuery sel) := by
  unfold findMatchingRecipes
  split_ifs with hsel
  · exact List.Pairwise.nil
  · cases recipesQuery with
    | error e => exact List.Pairwise.nil
    | ok allRecipes =>
      have hn : 1 ≤ sel.length := Nat.one_le_iff_ne_zero.mpr hsel
      refine List.Pairwise.imp (fun h => jsLe_rankedBefore h) ?_
      refine List.Pairwise.sublist (List.take_sublist _ _) ?_
      refine List.Pairwise.filter _ ?_
      refine pairwise_isortLe (S := scoreInv sel.length)
        (fun x y _ _ => jsLe_total x y)
        (fun x y z hx hy hz hxy hyz => jsLe_trans hn hx hy hz hxy hyz) ?_
      intro m hm
      obtain ⟨r, hr, rfl⟩ := List.mem_map.mp hm
      have hlen : (sel.map normalizeIngredient).length = sel.length := List.length_map _ _
      have hinv := scoreInv_scoreRecipe r (sel.map normalizeIngredient)
        (by rw [hlen]; exact hsel)
      rwa [hlen] at hinv

/-- C4: the per-pair predicate of `matchIngredientsInList` holds exactly
when the recipe ingredient contains the selected one, or the selected one
is strictly longer and contains the recipe ingredient; in particular both
chicken/chicken-breast directions are primary matches. -/
theorem claim_C4_match_predicate :
    (∀ recipeIng selected : Str,
        ingPairMatch recipeIng selected = true ↔
          ((∃ p q, recipeIng = p ++ selected ++ q) ∨
            (recipeIng.length < selected.length ∧ ∃ p q, selected = p ++ recipeIng ++ q))) ∧
      ingPairMatch chickenBreastStr chickenStr = true ∧
      ingPairMatch chickenStr chickenBreastStr = true := by
  refine ⟨?_, by decide, by decide⟩
  intro recipeIng selected
  unfold ingPairMatch
  rw [Bool.or_eq_true, Bool.and_eq_true, decide_eq_true_eq, hasSub_iff, hasSub_iff]

/-- C5: no recipe whose id is in the dislike set of the preference store
ever appears in the matcher output. -/
theorem claim_C5_disliked_excluded (recipesQuery : Except Unit (List Recipe))
    (dislikedIds : List Str) (sel : List Str) :
    List.Forall (fun m => m.recipe.id ∉ dislikedIds)
      (findMatchingRecipes recipesQuery (.ok dislikedIds) sel) := by
  rw [List.forall_iff_forall_mem]
  intro m hm
  exact (mem_findMatchingRecipes hm).1

/-- C6: in every search output, title hits precede body-only hits, the
matched-term count is non-increasing among hits with the same title flag,
and the score is non-increasing when both agree. -/
theorem claim_C6_search_ranking (recipesQuery : Except Unit (List Recipe)) (query : Str) :
    List.Pairwise searchRankedBefore (searchRecipes recipesQuery query) := by
  simp only [searchRecipes]
  split_ifs with h1 h2
  · exact List.Pairwise.nil
  · exact List.Pairwise.nil
  · cases recipesQuery with
    | error e => exact List.Pairwise.nil
    | ok recipes =>
      refine List.Pairwise.imp (fun h => searchLe_rankedBefore h) ?_
      refine List.Pairwise.sublist (List.take_sublist _ _) ?_
      exact pairwise_isortLe (S := fun _ => True)
        (fun x y _ _ => searchLe_total x y)
        (fun x y z _ _ _ hxy hyz => searchLe_trans hxy hyz)
        (fun _ _ => trivial)

/-- C10: every matcher result wraps a recipe in which some normalized
selected ingredient matches, via the substring predicate, some entry of
the recipe's `normalizedIngredients` or `ingredients` arrays — so a
recipe whose selected ingredients occur only in its instructions never
appears. -/
theorem claim_C10_requires_ingredient_entry (recipesQuery : Except Unit (List Recipe))
    (dislikedQuery : Except Unit (List Str)) (sel : List Str) :
    List.Forall
      (fun m => ∃ ing ∈ sel.map normalizeIngredient,
        ∃ entry ∈ m.recipe.normalizedIngredients.getD [] ++ m.recipe.ingredients.getD [],
          ingPairMatch (normalizeIngredient entry) ing = true)
      (findMatchingRecipes recipesQuery dislikedQuery sel) := by
  rw [List.forall_iff_forall_mem]
  intro m hm
  have h2 := (mem_findMatchingRecipes hm).2
  rw [List.any_eq_true] at h2
  obtain ⟨ing, hing, hmatch⟩ := h2
  refine ⟨ing, hing, ?_⟩
  unfold checkIngredientMatch at hmatch
  rw [Bool.or_eq_true, List.any_eq_true, List.any_eq_true] at hmatch
  rcases hmatch with ⟨e, he, hpm⟩ | ⟨e, he, hpm⟩
  · exact ⟨e, List.mem_append.mpr (Or.inl he), hpm⟩
  · exact ⟨e, List.mem_append.mpr (Or.inr he), hpm⟩

/-- C9 (counterexample): a failing Preference Store dislike query does
not make `findMatchingRecipes` return an empty list — with one matching
stored recipe the call still returns one result. -/
theorem claim_C9_counterexample :
    (findMatchingRecipes (.ok [recipeWithAA]) (.error ()) selSingle).length = 1 := by decide

/-- C9 (amended): a failing Recipe Store query makes both engines return
the empty list; a failing Preference Store dislike query never
propagates — the matcher proceeds exactly as with an empty dislike set. -/
theorem claim_C9_amended :
    (∀ (dislikedQuery : Except Unit (List Str)) (sel : List Str),
        findMatchingRecipes (.error ()) dislikedQuery sel = []) ∧
      (∀ query : Str, searchRecipes (.error ()) query = []) ∧
      (∀ (recipesQuery : Except Unit (List Recipe)) (sel : List Str),
        findMatchingRecipes recipesQuery (.error ()) sel =
          findMatchingRecipes recipesQuery (.ok []) sel) := by
  refine ⟨fun dislikedQuery sel => ?_, fun query => ?_, fun recipesQuery sel => rfl⟩
  · unfold findMatchingRecipes
    split_ifs <;> rfl
  · simp only [searchRecipes]
    split_ifs <;> rfl

/-- C8: for every recipe and non-empty selection, the returned score is
`primaryMatches * 1000 + secondaryMatches * 100 + completeness * 100`
with `completeness = primaryMatches / n`, `n` the selection size, and the
record also carries `n` as `totalSelected`. -/
theorem claim_C8_score_formula (r : Recipe) (sel : List Str) (h : sel ≠ []) :
    (scoreRecipe r sel).score =
        ((scoreRecipe r sel).primaryMatches : ℚ) * 1000 +
          ((scoreRecipe r sel).secondaryMatches : ℚ) * 100 +
          (((scoreRecipe r sel).primaryMatches : ℚ) / (sel.length : ℚ)) * 100 ∧
      (scoreRecipe r sel).totalSelected = sel.length := by
  have hlen : sel.length ≠ 0 := fun h0 => h (List.length_eq_zero.mp h0)
  refine ⟨(scoreInv_scoreRecipe r sel hlen).2.2, ?_⟩
  unfold scoreRecipe
  rw [if_neg hlen]

/-- C8 (witness): the score formula at the exact-match scenario recipe. -/
theorem claim_C8_score_formula_witness :
    (scoreRecipe recipeEggs eggsFlourSel).score =
        ((scoreRecipe recipeEggs eggsFlourSel).primaryMatches : ℚ) * 1000 +
          ((scoreRecipe recipeEggs eggsFlourSel).secondaryMatches : ℚ) * 100 +
          (((scoreRecipe recipeEggs eggsFlourSel).primaryMatches : ℚ) /
            (eggsFlourSel.length : ℚ)) * 100 ∧
      (scoreRecipe recipeEggs eggsFlourSel).totalSelected = eggsFlourSel.length :=
  claim_C8_score_formula recipeEggs eggsFlourSel (by decide)

/-- C7: `scoreTermMatch` returns 1 on an exact title match, else 0.9 when
the title starts with the term, else 0.8 when the title contains the
term, else 0.7 when some whitespace-delimited word of the title starts
with the term, else half the subsequence ratio when that ratio reaches
0.6, and 0 otherwise. -/
theorem claim_C7_scoreTermMatch (term titleLower : Str) (hterm : term ≠ []) :
    (titleLower = term → scoreTermMatch term titleLower = 1) ∧
      (titleLower ≠ term → (∃ t, titleLower = term ++ t) →
        scoreTermMatch term titleLower = 9/10) ∧
      (titleLower ≠ term → ¬ (∃ t, titleLower = term ++ t) →
        (∃ p q, titleLower = p ++ term ++ q) →
        scoreTermMatch term titleLower = 4/5) ∧
      (titleLower ≠ term → ¬ (∃ t, titleLower = term ++ t) →
        ¬ (∃ p q, titleLower = p ++ term ++ q) →
        (∃ w ∈ splitWs titleLower, ∃ t, w = term ++ t) →
        scoreTermMatch term titleLower = 7/10) ∧
      (titleLower ≠ term → ¬ (∃ t, titleLower = term ++ t) →
        ¬ (∃ p q, titleLower = p ++ term ++ q) →
        ¬ (∃ w ∈ splitWs titleLower, ∃ t, w = term ++ t) →
        ((3/5 ≤ (subseqCount term titleLower : ℚ) / (term.length : ℚ) →
            scoreTermMatch term titleLower =
              (subseqCount term titleLower : ℚ) / (term.length : ℚ) * (1/2)) ∧
          ((subseqCount term titleLower : ℚ) / (term.length : ℚ) < 3/5 →
            scoreTermMatch term titleLower = 0))) := by
  unfold scoreTermMatch
  refine ⟨?_, ?_, ?_, ?_, ?_⟩
  · intro he
    rw [if_pos he]
  · intro hne hpre
    rw [if_neg hne, if_pos ((startsW_iff _ _).mpr hpre)]
  · intro hne hnpre hsub
    rw [if_neg hne, if_neg (fun hs => hnpre ((startsW_iff _ _).mp hs)),
      if_pos ((hasSub_iff _ _).mpr hsub)]
  · intro hne hnpre hnsub hword
    obtain ⟨w, hw, t, ht⟩ := hword
    rw [if_neg hne, if_neg (fun hs => hnpre ((startsW_iff _ _).mp hs)),
      if_neg (fun hs => hnsub ((hasSub_iff _ _).mp hs)),
      if_pos (List.any_eq_true.mpr ⟨w, hw, (startsW_iff w term).mpr ⟨t, ht⟩⟩)]
  · intro hne hnpre hnsub hnword
    rw [if_neg hne, if_neg (fun hs => hnpre ((startsW_iff _ _).mp hs)),
      if_neg (fun hs => hnsub ((hasSub_iff _ _).mp hs)),
      if_neg (fun hany => hnword (by
        obtain ⟨w, hw, hs⟩ := List.any_eq_true.mp hany
        exact ⟨w, hw, (startsW_iff _ _).mp hs⟩))]
    constructor
    · intro hge
      rw [if_pos hge]
    · intro hlt
      rw [if_neg (not_le.mpr hlt)]

/-- C7 (witness): the prefix case at a concrete term and title. -/
theorem claim_C7_scoreTermMatch_witness :
    scoreTermMatch ['s', 'o'] ['s', 'o', 'u', 'p'] = 9/10 :=
  (claim_C7_scoreTermMatch ['s', 'o'] ['s', 'o', 'u', 'p'] (by decide)).2.1
    (by decide) ⟨['u', 'p'], rfl⟩
